import Mathlib

/-!
Formal model of the telldus-core client library.

The development shallowly embeds two parts of the repository:

* the message codec and token-cursor protocol declared in
  `src/telldus-core/common/Message.h` (class `TelldusCore::Message`).
  The implementation file of that class is not part of the source tree,
  so the codec operations are modelled from the specification: tokens
  are tagged with a one-character tag (`i` for Integer, `s` for Text)
  followed by a self-delimiting payload.  The spec leaves the exact
  self-delimiting scheme open; we fix a terminator-bounded decimal
  payload for Integer tokens (`i<decimal>;`) and a length-prefixed
  payload for Text tokens (`s<decimal-length>:<payload>`), which
  satisfies the round-trip and ordering contracts the spec demands.

* the public call surface in
  `src/telldus-core/driver/libtelldus-core/telldus-core.cpp`
  (`tdDim`, `tdTurnOn`, `tdTurnOff`, `tdGetErrorString`), embedded
  directly from the source.

Wide strings (`std::wstring`) are modelled as `List Char`; C `int` is
modelled as `Int` together with explicit 32-bit range hypotheses.
-/

namespace TelldusCore

/-- Numeric value of an ASCII digit character. -/
def digitVal (c : Char) : Nat := c.toNat - 48

/-- One step of reading a decimal numeral left to right. -/
def digitStep (acc : Nat) (c : Char) : Nat := 10 * acc + digitVal c

/-- Value of a decimal numeral, most significant digit first. -/
def digitsToNat (ds : List Char) : Nat := ds.foldl digitStep 0

/-- Fuel-driven rendering of a natural number in decimal, accumulating
digits least-significant first in front of `acc`.  The fuel is an upper
bound on the number of digits; `natToChars` always supplies enough. -/
def natToCharsFuel : Nat → Nat → List Char → List Char
  | 0, _, acc => acc
  | fuel + 1, n, acc =>
      if n < 10 then Nat.digitChar n :: acc
      else natToCharsFuel fuel (n / 10) (Nat.digitChar (n % 10) :: acc)

/-- Canonical decimal rendering of a natural number. -/
def natToChars (n : Nat) : List Char := natToCharsFuel (n + 1) n []

/-- Number of digits the fuel-driven rendering produces; mirrors the
recursion of `natToCharsFuel`. -/
def numDigitsFuel : Nat → Nat → Nat
  | 0, _ => 0
  | fuel + 1, n => if n < 10 then 1 else numDigitsFuel fuel (n / 10) + 1

/-- Modelled from the spec: `Message::intToWstring` (declared in
`Message.h`, implementation absent from the tree) is the canonical
decimal rendering of a C `int`, with a leading `-` for negatives. -/
def intToWstring (value : Int) : List Char :=
  if value < 0 then '-' :: natToChars value.natAbs else natToChars value.toNat

/-- Whether a signed 32-bit machine integer can hold `v`; used to model
the overflow failure of the numeric-token parser. -/
def intInRange (v : Int) : Option Int :=
  if -(2 ^ 31) ≤ v ∧ v ≤ 2 ^ 31 - 1 then some v else none

/-- Parse the digit run of a numeric token, with the sign already
stripped: fails on an empty run, on any non-digit character, and on
overflow of the 32-bit signed range. -/
def wideDigits (negative : Bool) (ds : List Char) : Option Int :=
  if ds.isEmpty then none
  else if ds.all Char.isDigit then
    intInRange (if negative then -(Int.ofNat (digitsToNat ds)) else Int.ofNat (digitsToNat ds))
  else none

/-- Modelled from the spec: `Message::wideToInteger` (declared in
`Message.h`, implementation absent from the tree) parses an optional
sign followed by one or more decimal digits and fails (kind
`InvalidNumericToken`, here `none`) on empty input, on a non-digit
after the optional sign, and on 32-bit signed overflow. -/
def wideToInteger (input : List Char) : Option Int :=
  match input with
  | [] => none
  | c :: cs =>
      if c = '-' then wideDigits true cs
      else if c = '+' then wideDigits false cs
      else wideDigits false (c :: cs)

/-- The text after the optional leading sign of a numeric token: one
leading `-` or `+` is consumed, anything else is kept. -/
def stripSign (input : List Char) : List Char :=
  match input with
  | [] => []
  | c :: cs => if c = '-' ∨ c = '+' then cs else c :: cs

/-- The signed value denoted by a numeric token, reading the digit run
after the optional sign; used to state the parser characterisation. -/
def parsedValue (input : List Char) : Int :=
  if input.head? = some '-' then -(Int.ofNat (digitsToNat (stripSign input)))
  else Int.ofNat (digitsToNat (stripSign input))

/-- Error kinds of the codec, per the specification's error model. -/
inductive MsgError where
  | ProtocolMismatch
  | InvalidNumericToken
  | MalformedPayload
deriving DecidableEq

/-- Modelled from the spec: `Message::addArgument(const std::wstring &)`
appends a Text token — tag `s`, decimal length, `:`, payload — to the
message. -/
def addArgumentStr (msg : List Char) (argument : List Char) : List Char :=
  msg ++ 's' :: (natToChars argument.length ++ ':' :: argument)

/-- Modelled from the spec: `Message::addArgument(int)` appends an
Integer token — tag `i`, canonical decimal via `intToWstring`, and a
`;` terminator — to the message. -/
def addArgumentInt (msg : List Char) (value : Int) : List Char :=
  msg ++ 'i' :: (intToWstring value ++ [';'])

/-- A typed argument of a message: the two token kinds of the wire
format. -/
inductive Arg where
  | int (v : Int)
  | str (s : List Char)
deriving DecidableEq

/-- Whether an integer argument fits the C `int` type (text arguments
are unconstrained). -/
def argOk : Arg → Bool
  | Arg.int v => decide (-(2 ^ 31) ≤ v ∧ v ≤ 2 ^ 31 - 1)
  | Arg.str _ => true

/-- Dispatch of the two `addArgument` overloads on a typed argument. -/
def addArgument (msg : List Char) : Arg → List Char
  | Arg.int v => addArgumentInt msg v
  | Arg.str s => addArgumentStr msg s

/-- A message built by a sequence of `addArgument` calls starting from
the empty message. -/
def encodeMessage (args : List Arg) : List Char :=
  args.foldl addArgument []

/-- The encoded form of a single argument. -/
def encodeArg (a : Arg) : List Char := addArgument [] a

/-- The concatenation of the encoded forms of a list of arguments;
`encodeMessage` produces exactly this buffer. -/
def encodeList : List Arg → List Char
  | [] => []
  | a :: as => encodeArg a ++ encodeList as

/-- Modelled from the spec: `Message::nextIsInt` peeks at the leading
tag, true iff it is the Integer tag `i`; takes the buffer by const
reference. -/
def nextIsInt (buf : List Char) : Bool :=
  match buf with
  | [] => false
  | c :: _ => if c = 'i' then true else false

/-- Modelled from the spec: `Message::nextIsString` peeks at the
leading tag, true iff it is the Text tag `s`; takes the buffer by const
reference. -/
def nextIsString (buf : List Char) : Bool :=
  match buf with
  | [] => false
  | c :: _ => if c = 's' then true else false

/-- The `nextIsInt` call as an operation on the buffer: the peek result
paired with the buffer the caller observes afterwards.  The source
signature takes the buffer by const reference, so the buffer afterwards
is the input buffer. -/
def nextIsIntOp (buf : List Char) : Bool × List Char := (nextIsInt buf, buf)

/-- The `nextIsString` call as an operation on the buffer, as for
`nextIsIntOp`. -/
def nextIsStringOp (buf : List Char) : Bool × List Char := (nextIsString buf, buf)

/-- Split a buffer at the first occurrence of the terminator `t`,
returning the part before it and the part after it. -/
def splitAtChar (t : Char) : List Char → Option (List Char × List Char)
  | [] => none
  | c :: cs =>
      if c = t then some ([], cs)
      else
        match splitAtChar t cs with
        | some (p, r) => some (c :: p, r)
        | none => none

/-- Modelled from the spec: `Message::takeInt` consumes the leading
Integer token and returns its value together with the rest of the
buffer.  If the leading tag is not `i` it fails with
`ProtocolMismatch`; on any failure the buffer is returned unchanged. -/
def takeInt (buf : List Char) : Except MsgError Int × List Char :=
  match buf with
  | [] => (Except.error MsgError.ProtocolMismatch, [])
  | c :: rest =>
      if c = 'i' then
        match splitAtChar ';' rest with
        | some (payload, remainder) =>
            match wideToInteger payload with
            | some v => (Except.ok v, remainder)
            | none => (Except.error MsgError.InvalidNumericToken, c :: rest)
        | none => (Except.error MsgError.MalformedPayload, c :: rest)
      else (Except.error MsgError.ProtocolMismatch, c :: rest)

/-- Modelled from the spec: `Message::takeString` consumes the leading
Text token — tag `s`, decimal length, `:`, then exactly that many
payload characters — and returns the payload together with the rest of
the buffer.  If the leading tag is not `s` it fails with
`ProtocolMismatch`; on any failure the buffer is returned unchanged. -/
def takeString (buf : List Char) : Except MsgError (List Char) × List Char :=
  match buf with
  | [] => (Except.error MsgError.ProtocolMismatch, [])
  | c :: rest =>
      if c = 's' then
        match splitAtChar ':' rest with
        | some (lenChars, remainder) =>
            if lenChars.isEmpty then (Except.error MsgError.MalformedPayload, c :: rest)
            else if lenChars.all Char.isDigit then
              if digitsToNat lenChars ≤ remainder.length then
                (Except.ok (remainder.take (digitsToNat lenChars)),
                 remainder.drop (digitsToNat lenChars))
              else (Except.error MsgError.MalformedPayload, c :: rest)
            else (Except.error MsgError.MalformedPayload, c :: rest)
        | none => (Except.error MsgError.MalformedPayload, c :: rest)
      else (Except.error MsgError.ProtocolMismatch, c :: rest)

/-- Modelled from the spec: `Message::getClientBoolFromSocket` decodes
one complete Integer token from the accumulated buffer and interprets 0
as false and any nonzero value as true. -/
def getClientBoolFromSocket (buf : List Char) : Except MsgError Bool × List Char :=
  match takeInt buf with
  | (Except.ok v, rest) => (Except.ok (decide (v ≠ 0)), rest)
  | (Except.error e, rest) => (Except.error e, rest)

/-- Drain a buffer token by token, dispatching on the peeked tag, until
it is empty.  The fuel bounds the number of tokens; one unit is spent
per token. -/
def drainAux : Nat → List Char → Option (List Arg)
  | _, [] => some []
  | 0, _ :: _ => none
  | fuel + 1, c :: cs =>
      if nextIsInt (c :: cs) then
        match takeInt (c :: cs) with
        | (Except.ok v, rest) => Option.map (fun as => Arg.int v :: as) (drainAux fuel rest)
        | (Except.error _, _) => none
      else if nextIsString (c :: cs) then
        match takeString (c :: cs) with
        | (Except.ok s, rest) => Option.map (fun as => Arg.str s :: as) (drainAux fuel rest)
        | (Except.error _, _) => none
      else none

/-- Drain a whole buffer; the buffer length bounds the token count. -/
def drain (buf : List Char) : Option (List Arg) := drainAux buf.length buf

end TelldusCore

/-- The `TELLSTICK_*` method flags passed to `Manager::switchState` by
the public call surface in `telldus-core.cpp`. -/
inductive Method where
  | turnOn
  | turnOff
  | bell
  | dim
  | learn
deriving DecidableEq

/-- The `Manager::switchState` invocation a public call issues: either
the two-argument form or the three-argument form carrying a dim
level.  `Manager` is an external collaborator, so the invocation itself
is the observable effect of the call. -/
inductive SwitchStateCall where
  | noValue (deviceId : Int) (method : Method)
  | withValue (deviceId : Int) (method : Method) (value : Nat)
deriving DecidableEq

/-- Embeds `tdTurnOn` (`telldus-core.cpp` line 133): switches the
device state with `TELLSTICK_TURNON`. -/
def tdTurnOn (intDeviceId : Int) : SwitchStateCall :=
  SwitchStateCall.noValue intDeviceId Method.turnOn

/-- Embeds `tdTurnOff` (`telldus-core.cpp` line 151): switches the
device state with `TELLSTICK_TURNOFF`. -/
def tdTurnOff (intDeviceId : Int) : SwitchStateCall :=
  SwitchStateCall.noValue intDeviceId Method.turnOff

/-- Embeds `tdDim` (`telldus-core.cpp` line 188): level 0 switches with
`TELLSTICK_TURNOFF`, level 255 with `TELLSTICK_TURNON`, anything in
between issues `TELLSTICK_DIM` carrying the level.  The level parameter
is an `unsigned char`, modelled as a `Nat` below 256. -/
def tdDim (intDeviceId : Int) (level : Nat) : SwitchStateCall :=
  if level = 0 then SwitchStateCall.noValue intDeviceId Method.turnOff
  else if level = 255 then SwitchStateCall.noValue intDeviceId Method.turnOn
  else SwitchStateCall.withValue intDeviceId Method.dim level

/-- The response table of `tdGetErrorString` (`telldus-core.cpp` line
578). -/
def responses : List String :=
  ["Success",
   "TellStick not found",
   "Permission denied",
   "Device not found",
   "The method you tried to use is not supported by the device",
   "An error occurred while communicating with TellStick",
   "Could not connect to the Telldus Service",
   "Received an unknown response"]

/-- Embeds `tdGetErrorString` (`telldus-core.cpp` line 576): the error
code is mapped through `abs` and looked up in the response table, codes
at or beyond the table length yielding the string `Unknown error`.
`abs` from the C library is undefined when its result is not
representable, which happens exactly at `INT32_MIN`; that input is
modelled as `none` (no string is returned). -/
def tdGetErrorString (intErrorNo : Int) : Option String :=
  if intErrorNo = -(2 ^ 31) then none
  else if intErrorNo.natAbs ≥ 8 then some "Unknown error"
  else some (responses.getD intErrorNo.natAbs "")

namespace TelldusCore

theorem digitVal_digitChar {d : Nat} (h : d < 10) : digitVal (Nat.digitChar d) = d := by
  interval_cases d <;> decide

theorem digitChar_isDigit {d : Nat} (h : d < 10) : (Nat.digitChar d).isDigit = true := by
  interval_cases d <;> decide

theorem natToCharsFuel_foldl (fuel : Nat) :
    ∀ (n : Nat) (acc : List Char) (a : Nat), n < fuel →
      List.foldl digitStep a (natToCharsFuel fuel n acc)
        = List.foldl digitStep (a * 10 ^ numDigitsFuel fuel n + n) acc := by
  induction fuel with
  | zero => intro n acc a h; omega
  | succ f ih =>
    intro n acc a h
    by_cases hn : n < 10
    · simp only [natToCharsFuel, numDigitsFuel, if_pos hn, List.foldl_cons]
      congr 1
      simp only [digitStep, digitVal_digitChar hn]
      ring
    · have hdiv : n / 10 < n := Nat.div_lt_self (by omega) (by omega)
      have hf : n / 10 < f := by omega
      simp only [natToCharsFuel, numDigitsFuel, if_neg hn]
      rw [ih (n / 10) (Nat.digitChar (n % 10) :: acc) a hf]
      simp only [List.foldl_cons]
      congr 1
      have hm : n % 10 < 10 := Nat.mod_lt _ (by omega)
      simp only [digitStep, digitVal_digitChar hm]
      have h2 : 10 * (n / 10) + n % 10 = n := by omega
      calc 10 * (a * 10 ^ numDigitsFuel f (n / 10) + n / 10) + n % 10
          = a * (10 ^ numDigitsFuel f (n / 10) * 10) + (10 * (n / 10) + n % 10) := by ring
        _ = a * 10 ^ (numDigitsFuel f (n / 10) + 1) + n := by rw [h2, pow_succ]

theorem digitsToNat_natToChars (n : Nat) : digitsToNat (natToChars n) = n := by
  have h := natToCharsFuel_foldl (n + 1) n [] 0 (Nat.lt_succ_self n)
  simpa [digitsToNat, natToChars] using h

theorem natToCharsFuel_mem (fuel : Nat) :
    ∀ (n : Nat) (acc : List Char), (∀ c ∈ acc, c.isDigit = true) →
      ∀ c ∈ natToCharsFuel fuel n acc, c.isDigit = true := by
  induction fuel with
  | zero => intro n acc hacc; simpa [natToCharsFuel] using hacc
  | succ f ih =>
    intro n acc hacc c hc
    by_cases hn : n < 10
    · simp only [natToCharsFuel, if_pos hn] at hc
      rcases List.mem_cons.mp hc with h | h
      · subst h; exact digitChar_isDigit hn
      · exact hacc c h
    · simp only [natToCharsFuel, if_neg hn] at hc
      refine ih (n / 10) (Nat.digitChar (n % 10) :: acc) ?_ c hc
      intro x hx
      rcases List.mem_cons.mp hx with h | h
      · subst h; exact digitChar_isDigit (Nat.mod_lt _ (by omega))
      · exact hacc x h

theorem natToChars_mem {n : Nat} {c : Char} (hc : c ∈ natToChars n) : c.isDigit = true :=
  natToCharsFuel_mem (n + 1) n [] (by simp) c hc

theorem natToCharsFuel_head (fuel : Nat) :
    ∀ (n : Nat) (acc : List Char), n < fuel →
      ∃ d rest, natToCharsFuel fuel n acc = Nat.digitChar d :: rest ∧ d < 10 := by
  induction fuel with
  | zero => intro n acc h; omega
  | succ f ih =>
    intro n acc h
    by_cases hn : n < 10
    · exact ⟨n, acc, by simp [natToCharsFuel, if_pos hn], hn⟩
    · have hdiv : n / 10 < n := Nat.div_lt_self (by omega) (by omega)
      have hf : n / 10 < f := by omega
      obtain ⟨d, rest, heq, hd⟩ := ih (n / 10) (Nat.digitChar (n % 10) :: acc) hf
      exact ⟨d, rest, by simp [natToCharsFuel, if_neg hn, heq], hd⟩

theorem natToChars_head (n : Nat) :
    ∃ d rest, natToChars n = Nat.digitChar d :: rest ∧ d < 10 :=
  natToCharsFuel_head (n + 1) n [] (Nat.lt_succ_self n)

theorem isDigit_ne {c x : Char} (hc : c.isDigit = true) (hx : x.isDigit = false) : c ≠ x := by
  intro h
  subst h
  simp [hc] at hx

theorem not_mem_natToChars_of_not_digit {x : Char} (hx : x.isDigit = false) (n : Nat) :
    x ∉ natToChars n := fun h => by simp [natToChars_mem h] at hx

theorem intToWstring_mem {v : Int} {c : Char} (hc : c ∈ intToWstring v) :
    c = '-' ∨ c.isDigit = true := by
  unfold intToWstring at hc
  split at hc
  · rcases List.mem_cons.mp hc with h | h
    · exact Or.inl h
    · exact Or.inr (natToChars_mem h)
  · exact Or.inr (natToChars_mem hc)

theorem semicolon_not_mem_intToWstring (v : Int) : ';' ∉ intToWstring v := by
  intro h
  rcases intToWstring_mem h with h1 | h1
  · exact absurd h1 (by decide)
  · exact absurd h1 (by decide)

theorem natToChars_isEmpty_false (n : Nat) : (natToChars n).isEmpty = false := by
  obtain ⟨d, rest, heq, _⟩ := natToChars_head n
  rw [heq]
  rfl

theorem natToChars_all_digits (n : Nat) : (natToChars n).all Char.isDigit = true := by
  rw [List.all_eq_true]
  intro c hc
  exact natToChars_mem hc

theorem wideDigits_natToChars (b : Bool) (n : Nat) :
    wideDigits b (natToChars n)
      = intInRange (if b then -(Int.ofNat n) else Int.ofNat n) := by
  rw [wideDigits, natToChars_isEmpty_false n, natToChars_all_digits n, digitsToNat_natToChars n]
  simp

theorem wideToInteger_intToWstring (v : Int)
    (h1 : -(2 ^ 31) ≤ v) (h2 : v ≤ 2 ^ 31 - 1) :
    wideToInteger (intToWstring v) = some v := by
  by_cases hv : v < 0
  · have habs : -(Int.ofNat v.natAbs) = v := by
      rw [Int.ofNat_eq_natCast]
      omega
    rw [show intToWstring v = '-' :: natToChars v.natAbs from if_pos hv]
    rw [show wideToInteger ('-' :: natToChars v.natAbs)
          = wideDigits true (natToChars v.natAbs) by simp [wideToInteger]]
    rw [wideDigits_natToChars]
    rw [show (if (true : Bool) then -(Int.ofNat v.natAbs) else Int.ofNat v.natAbs)
          = -(Int.ofNat v.natAbs) from rfl]
    rw [habs]
    unfold intInRange
    exact if_pos ⟨h1, h2⟩
  · have htn : Int.ofNat v.toNat = v := by
      rw [Int.ofNat_eq_natCast]
      omega
    have hw : intToWstring v = natToChars v.toNat := if_neg hv
    obtain ⟨d, rest, heq, hd⟩ := natToChars_head v.toNat
    have hd1 : Nat.digitChar d ≠ '-' := isDigit_ne (digitChar_isDigit hd) (by decide)
    have hd2 : Nat.digitChar d ≠ '+' := isDigit_ne (digitChar_isDigit hd) (by decide)
    rw [hw, heq]
    rw [show wideToInteger (Nat.digitChar d :: rest)
          = wideDigits false (Nat.digitChar d :: rest) by
        simp [wideToInteger, if_neg hd1, if_neg hd2]]
    rw [← heq, wideDigits_natToChars]
    rw [show (if (false : Bool) then -(Int.ofNat v.toNat) else Int.ofNat v.toNat)
          = Int.ofNat v.toNat from rfl]
    rw [htn]
    unfold intInRange
    exact if_pos ⟨h1, h2⟩

theorem splitAtChar_append (t : Char) (xs ys : List Char) (h : t ∉ xs) :
    splitAtChar t (xs ++ t :: ys) = some (xs, ys) := by
  induction xs with
  | nil => simp [splitAtChar]
  | cons x xs ih =>
    have hx : ¬(x = t) := fun hxt => h (by rw [hxt]; exact List.mem_cons_self t xs)
    have h' : t ∉ xs := fun hm => h (List.mem_cons_of_mem x hm)
    rw [List.cons_append]
    show (if x = t then some ([], xs ++ t :: ys)
          else match splitAtChar t (xs ++ t :: ys) with
               | some (p, r) => some (x :: p, r)
               | none => none) = some (x :: xs, ys)
    rw [if_neg hx, ih h']

theorem take_len_append (xs ys : List Char) : (xs ++ ys).take xs.length = xs := by
  induction xs with
  | nil => rfl
  | cons x xs ih => simp [ih]

theorem drop_len_append (xs ys : List Char) : (xs ++ ys).drop xs.length = ys := by
  induction xs with
  | nil => rfl
  | cons x xs ih => simp [ih]

theorem takeInt_encoded (v : Int) (rest : List Char)
    (h1 : -(2 ^ 31) ≤ v) (h2 : v ≤ 2 ^ 31 - 1) :
    takeInt (addArgumentInt [] v ++ rest) = (Except.ok v, rest) := by
  have hsplit : splitAtChar ';' (intToWstring v ++ ';' :: rest)
      = some (intToWstring v, rest) :=
    splitAtChar_append ';' _ rest (semicolon_not_mem_intToWstring v)
  have hbuf : addArgumentInt [] v ++ rest = 'i' :: (intToWstring v ++ ';' :: rest) := by
    simp [addArgumentInt]
  rw [hbuf]
  simp [takeInt, hsplit, wideToInteger_intToWstring v h1 h2]

theorem takeString_encoded (s rest : List Char) :
    takeString (addArgumentStr [] s ++ rest) = (Except.ok s, rest) := by
  have hnot : ':' ∉ natToChars s.length := not_mem_natToChars_of_not_digit (by decide) _
  have hsplit : splitAtChar ':' (natToChars s.length ++ ':' :: (s ++ rest))
      = some (natToChars s.length, s ++ rest) := splitAtChar_append _ _ _ hnot
  have hbuf : addArgumentStr [] s ++ rest
      = 's' :: (natToChars s.length ++ ':' :: (s ++ rest)) := by
    simp [addArgumentStr]
  have hlen : digitsToNat (natToChars s.length) ≤ (s ++ rest).length := by
    rw [digitsToNat_natToChars, List.length_append]
    exact Nat.le_add_right _ _
  rw [hbuf]
  simp [takeString, hsplit, natToChars_isEmpty_false, natToChars_all_digits,
        digitsToNat_natToChars, hlen, take_len_append, drop_len_append]

theorem addArgument_eq (msg : List Char) (a : Arg) :
    addArgument msg a = msg ++ encodeArg a := by
  cases a <;> simp [addArgument, encodeArg, addArgumentInt, addArgumentStr]

theorem foldl_addArgument (args : List Arg) :
    ∀ msg, args.foldl addArgument msg = msg ++ encodeList args := by
  induction args with
  | nil => intro msg; simp [encodeList]
  | cons a as ih =>
    intro msg
    simp only [List.foldl_cons, encodeList]
    rw [addArgument_eq, ih, List.append_assoc]

theorem encodeMessage_eq (args : List Arg) : encodeMessage args = encodeList args := by
  have h := foldl_addArgument args []
  simpa [encodeMessage] using h

theorem length_le_encodeList (args : List Arg) : args.length ≤ (encodeList args).length := by
  induction args with
  | nil => simp [encodeList]
  | cons a as ih =>
    obtain ⟨c, cs, heq⟩ : ∃ c cs, encodeArg a = c :: cs := by
      cases a with
      | int v => exact ⟨'i', _, rfl⟩
      | str s => exact ⟨'s', _, rfl⟩
    simp only [encodeList, heq, List.length_cons, List.cons_append, List.length_append]
    omega

theorem drainAux_int_step (f : Nat) (v : Int) (tail : List Char)
    (h1 : -(2 ^ 31) ≤ v) (h2 : v ≤ 2 ^ 31 - 1) :
    drainAux (f + 1) (addArgumentInt [] v ++ tail)
      = Option.map (fun as => Arg.int v :: as) (drainAux f tail) := by
  have hbuf : addArgumentInt [] v ++ tail = 'i' :: (intToWstring v ++ ';' :: tail) := by
    simp [addArgumentInt]
  have htake := takeInt_encoded v tail h1 h2
  rw [hbuf] at htake
  rw [hbuf, drainAux]
  rw [show nextIsInt ('i' :: (intToWstring v ++ ';' :: tail)) = true from rfl]
  rw [htake]
  simp

theorem drainAux_str_step (f : Nat) (s : List Char) (tail : List Char) :
    drainAux (f + 1) (addArgumentStr [] s ++ tail)
      = Option.map (fun as => Arg.str s :: as) (drainAux f tail) := by
  have hbuf : addArgumentStr [] s ++ tail
      = 's' :: (natToChars s.length ++ ':' :: (s ++ tail)) := by
    simp [addArgumentStr]
  have htake := takeString_encoded s tail
  rw [hbuf] at htake
  rw [hbuf, drainAux]
  rw [show nextIsInt ('s' :: (natToChars s.length ++ ':' :: (s ++ tail))) = false from rfl]
  rw [show nextIsString ('s' :: (natToChars s.length ++ ':' :: (s ++ tail))) = true from rfl]
  rw [htake]
  simp

theorem drainAux_encodeList (args : List Arg) :
    ∀ fuel, args.length ≤ fuel → (∀ a ∈ args, argOk a = true) →
      drainAux fuel (encodeList args) = some args := by
  induction args with
  | nil => intro fuel _ _; cases fuel <;> rfl
  | cons a as ih =>
    intro fuel hlen hok
    obtain ⟨f, rfl⟩ : ∃ f, fuel = f + 1 := ⟨fuel - 1, by simp at hlen; omega⟩
    have hok' : ∀ x ∈ as, argOk x = true := fun x hx => hok x (List.mem_cons_of_mem _ hx)
    have hlen' : as.length ≤ f := by simp at hlen; omega
    cases a with
    | int v =>
      have hv : -(2 ^ 31) ≤ v ∧ v ≤ 2 ^ 31 - 1 := by
        have h := hok _ (List.mem_cons_self _ _)
        simpa [argOk] using h
      have hsplit : encodeList (Arg.int v :: as) = addArgumentInt [] v ++ encodeList as := by
        simp [encodeList, encodeArg, addArgument]
      rw [hsplit, drainAux_int_step f v (encodeList as) hv.1 hv.2, ih f hlen' hok']
      rfl
    | str s =>
      have hsplit : encodeList (Arg.str s :: as) = addArgumentStr [] s ++ encodeList as := by
        simp [encodeList, encodeArg, addArgument]
      rw [hsplit, drainAux_str_step f s (encodeList as), ih f hlen' hok']
      rfl

theorem drain_encodeMessage (args : List Arg) (hok : ∀ a ∈ args, argOk a = true) :
    drain (encodeMessage args) = some args := by
  rw [encodeMessage_eq]
  exact drainAux_encodeList args _ (length_le_encodeList args) hok

theorem takeInt_cons_i (rest : List Char) :
    takeInt ('i' :: rest)
      = match splitAtChar ';' rest with
        | some (payload, remainder) =>
            match wideToInteger payload with
            | some v => (Except.ok v, remainder)
            | none => (Except.error MsgError.InvalidNumericToken, 'i' :: rest)
        | none => (Except.error MsgError.MalformedPayload, 'i' :: rest) := rfl

theorem takeString_cons_s (rest : List Char) :
    takeString ('s' :: rest)
      = match splitAtChar ':' rest with
        | some (lenChars, remainder) =>
            if lenChars.isEmpty then (Except.error MsgError.MalformedPayload, 's' :: rest)
            else if lenChars.all Char.isDigit then
              if digitsToNat lenChars ≤ remainder.length then
                (Except.ok (remainder.take (digitsToNat lenChars)),
                 remainder.drop (digitsToNat lenChars))
              else (Except.error MsgError.MalformedPayload, 's' :: rest)
            else (Except.error MsgError.MalformedPayload, 's' :: rest)
        | none => (Except.error MsgError.MalformedPayload, 's' :: rest) := rfl

theorem takeInt_cons_ne (c : Char) (rest : List Char) (hc : ¬(c = 'i')) :
    takeInt (c :: rest) = (Except.error MsgError.ProtocolMismatch, c :: rest) := by
  simp [takeInt, if_neg hc]

theorem takeString_cons_ne (c : Char) (rest : List Char) (hc : ¬(c = 's')) :
    takeString (c :: rest) = (Except.error MsgError.ProtocolMismatch, c :: rest) := by
  simp [takeString, if_neg hc]

theorem takeInt_fst_PM_iff (buf : List Char) :
    (takeInt buf).1 = Except.error MsgError.ProtocolMismatch ↔ nextIsInt buf = false := by
  cases buf with
  | nil => simp [takeInt, nextIsInt]
  | cons c rest =>
    by_cases hc : c = 'i'
    · subst hc
      rw [show nextIsInt ('i' :: rest) = true from rfl]
      simp only [Bool.true_eq_false, iff_false]
      intro h
      rw [takeInt_cons_i] at h
      split at h
      · split at h
        · simp at h
        · simp at h
      · simp at h
    · have hnext : nextIsInt (c :: rest) = false := by simp [nextIsInt, if_neg hc]
      rw [hnext, takeInt_cons_ne c rest hc]
      simp

theorem takeString_fst_PM_iff (buf : List Char) :
    (takeString buf).1 = Except.error MsgError.ProtocolMismatch ↔ nextIsString buf = false := by
  cases buf with
  | nil => simp [takeString, nextIsString]
  | cons c rest =>
    by_cases hc : c = 's'
    · subst hc
      rw [show nextIsString ('s' :: rest) = true from rfl]
      simp only [Bool.true_eq_false, iff_false]
      intro h
      rw [takeString_cons_s] at h
      split at h
      · split at h
        · simp at h
        · split at h
          · split at h
            · simp at h
            · simp at h
          · simp at h
      · simp at h
    · have hnext : nextIsString (c :: rest) = false := by simp [nextIsString, if_neg hc]
      rw [hnext, takeString_cons_ne c rest hc]
      simp

theorem takeInt_mismatch (buf : List Char) (h : nextIsString buf = true) :
    takeInt buf = (Except.error MsgError.ProtocolMismatch, buf) := by
  cases buf with
  | nil => simp [nextIsString] at h
  | cons c rest =>
    have hc : c = 's' := by
      by_contra hne
      simp [nextIsString, if_neg hne] at h
    subst hc
    rfl

theorem takeString_mismatch (buf : List Char) (h : nextIsInt buf = true) :
    takeString buf = (Except.error MsgError.ProtocolMismatch, buf) := by
  cases buf with
  | nil => simp [nextIsInt] at h
  | cons c rest =>
    have hc : c = 'i' := by
      by_contra hne
      simp [nextIsInt, if_neg hne] at h
    subst hc
    rfl

theorem getClientBool_encoded (v : Int)
    (h1 : -(2 ^ 31) ≤ v) (h2 : v ≤ 2 ^ 31 - 1) :
    getClientBoolFromSocket (addArgumentInt [] v) = (Except.ok (decide (v ≠ 0)), []) := by
  have htake := takeInt_encoded v [] h1 h2
  rw [List.append_nil] at htake
  rw [getClientBoolFromSocket, htake]

theorem wideDigitsCase (b : Bool) (ds : List Char) (v : Int)
    (hv : (if b then -(Int.ofNat (digitsToNat ds)) else Int.ofNat (digitsToNat ds)) = v) :
    wideDigits b ds =
      if ds = [] ∨ ds.all Char.isDigit = false ∨ ¬(-(2 ^ 31) ≤ v ∧ v ≤ 2 ^ 31 - 1)
      then none else some v := by
  subst hv
  unfold wideDigits intInRange
  rcases ds with _ | ⟨d, ds⟩
  · simp
  · have hnil : (d :: ds : List Char) ≠ [] := by simp
    simp only [List.isEmpty_cons, Bool.false_eq_true, if_false]
    generalize (if b = true then -Int.ofNat (digitsToNat (d :: ds))
                else Int.ofNat (digitsToNat (d :: ds))) = V
    generalize (d :: ds).all Char.isDigit = A
    cases A
    · rw [if_neg (by simp : ¬(false = true))]
      rw [if_pos (Or.inr (Or.inl rfl))]
    · rw [if_pos (rfl : true = true)]
      by_cases hr : -(2 ^ 31) ≤ V ∧ V ≤ 2 ^ 31 - 1
      · have hnc : ¬(d :: ds = [] ∨ true = false
            ∨ ¬(-(2 ^ 31) ≤ V ∧ V ≤ 2 ^ 31 - 1)) := by
          rintro (h | h | h)
          · exact hnil h
          · cases h
          · exact h hr
        rw [if_pos hr, if_neg hnc]
      · have hc : d :: ds = [] ∨ true = false
            ∨ ¬(-(2 ^ 31) ≤ V ∧ V ≤ 2 ^ 31 - 1) := Or.inr (Or.inr hr)
        rw [if_neg hr, if_pos hc]

theorem wideToInteger_eq (input : List Char) :
    wideToInteger input =
      if input = [] ∨ stripSign input = []
          ∨ (stripSign input).all Char.isDigit = false
          ∨ ¬(-(2 ^ 31) ≤ parsedValue input ∧ parsedValue input ≤ 2 ^ 31 - 1)
      then none else some (parsedValue input) := by
  rcases input with _ | ⟨c, cs⟩
  · simp [wideToInteger, stripSign]
  · have hnonnil : ((c :: cs : List Char) = []) = False := by simp
    by_cases hcm : c = '-'
    · subst hcm
      have hstrip : stripSign ('-' :: cs) = cs := by simp [stripSign]
      have hval : parsedValue ('-' :: cs) = -(Int.ofNat (digitsToNat cs)) := by
        simp [parsedValue, hstrip]
      rw [show wideToInteger ('-' :: cs) = wideDigits true cs by simp [wideToInteger]]
      rw [hstrip, hval]
      simp only [hnonnil, false_or]
      exact wideDigitsCase true cs _ rfl
    · by_cases hcp : c = '+'
      · subst hcp
        have hstrip : stripSign ('+' :: cs) = cs := by simp [stripSign]
        have hval : parsedValue ('+' :: cs) = Int.ofNat (digitsToNat cs) := by
          simp [parsedValue, hstrip]
        rw [show wideToInteger ('+' :: cs) = wideDigits false cs by simp [wideToInteger]]
        rw [hstrip, hval]
        simp only [hnonnil, false_or]
        exact wideDigitsCase false cs _ rfl
      · have hstrip : stripSign (c :: cs) = c :: cs := by
          simp [stripSign, hcm, hcp]
        have hval : parsedValue (c :: cs) = Int.ofNat (digitsToNat (c :: cs)) := by
          simp [parsedValue, hstrip, hcm]
        have hcase := wideDigitsCase false (c :: cs) (Int.ofNat (digitsToNat (c :: cs))) rfl
        rw [show wideToInteger (c :: cs) = wideDigits false (c :: cs) by
              simp [wideToInteger, hcm, hcp]]
        rw [hstrip, hval]
        simp only [hnonnil, false_or] at hcase ⊢
        exact hcase

/-- C1: for every 32-bit signed integer `v` (including the extremes of
the range, 0 and negatives), parsing the canonical decimal rendering of
`v` yields `v` again: `wideToInteger (intToWstring v) = some v`. -/
theorem c1_integer_text_roundtrip (v : Int)
    (h1 : -(2 ^ 31) ≤ v) (h2 : v ≤ 2 ^ 31 - 1) :
    wideToInteger (intToWstring v) = some v :=
  wideToInteger_intToWstring v h1 h2

/-- Witness for C1 at `INT32_MIN`. -/
theorem c1_integer_text_roundtrip_witness :
    (-(2 ^ 31) ≤ (-(2 ^ 31) : Int) ∧ (-(2 ^ 31) : Int) ≤ 2 ^ 31 - 1) ∧
      wideToInteger (intToWstring (-(2 ^ 31))) = some (-(2 ^ 31)) :=
  ⟨⟨by decide, by decide⟩, c1_integer_text_roundtrip (-(2 ^ 31)) (by decide) (by decide)⟩

/-- C2: for every Unicode text `s` — including the empty text and text
containing ASCII digits or the tag characters `i` and `s` — appending
`s` as a Text token with `addArgument` and then decoding the token with
`takeString` yields `s` exactly, consuming the whole buffer. -/
theorem c2_text_roundtrip (s : List Char) :
    takeString (addArgumentStr [] s) = (Except.ok s, []) := by
  have h := takeString_encoded s []
  rwa [List.append_nil] at h

/-- C3: tokens are drained in exactly the order they were appended:
draining the serialised message built from any argument list by
successive `addArgument` calls yields the same values in the same
order, ending on an empty buffer. -/
theorem c3_fifo_drain (args : List Arg) (hok : ∀ a ∈ args, argOk a = true) :
    drain (encodeMessage args) = some args :=
  drain_encodeMessage args hok

/-- Witness for C3 at the argument list `[1, "abc", -7]` from the
specification. -/
theorem c3_fifo_drain_witness :
    (∀ a ∈ [Arg.int 1, Arg.str ['a', 'b', 'c'], Arg.int (-7)], argOk a = true) ∧
      drain (encodeMessage [Arg.int 1, Arg.str ['a', 'b', 'c'], Arg.int (-7)])
        = some [Arg.int 1, Arg.str ['a', 'b', 'c'], Arg.int (-7)] :=
  ⟨by decide, c3_fifo_drain _ (by decide)⟩

/-- C4: for every buffer, `nextIsInt` is true exactly when `takeInt`
would not fail with `ProtocolMismatch`, and `nextIsString` is true
exactly when `takeString` would not fail with `ProtocolMismatch`. -/
theorem c4_peek_take_agreement (buf : List Char) :
    (nextIsInt buf = true ↔ (takeInt buf).1 ≠ Except.error MsgError.ProtocolMismatch) ∧
    (nextIsString buf = true ↔ (takeString buf).1 ≠ Except.error MsgError.ProtocolMismatch) := by
  constructor
  · simp only [ne_eq, takeInt_fst_PM_iff]
    cases nextIsInt buf <;> simp
  · simp only [ne_eq, takeString_fst_PM_iff]
    cases nextIsString buf <;> simp

/-- C5: `takeInt` on a buffer whose leading token is Text fails with
`ProtocolMismatch` and returns the buffer unmodified, and symmetrically
`takeString` on a buffer whose leading token is Integer fails with
`ProtocolMismatch` and returns the buffer unmodified, so a subsequent
peek or take observes the same leading token. -/
theorem c5_mismatch_atomic (bufS bufI : List Char)
    (hS : nextIsString bufS = true) (hI : nextIsInt bufI = true) :
    takeInt bufS = (Except.error MsgError.ProtocolMismatch, bufS) ∧
    takeString bufI = (Except.error MsgError.ProtocolMismatch, bufI) :=
  ⟨takeInt_mismatch bufS hS, takeString_mismatch bufI hI⟩

/-- Witness for C5 on a one-token Text buffer and a one-token Integer
buffer. -/
theorem c5_mismatch_atomic_witness :
    (nextIsString (addArgumentStr [] ['a']) = true ∧
      nextIsInt (addArgumentInt [] 7) = true) ∧
    (takeInt (addArgumentStr [] ['a'])
        = (Except.error MsgError.ProtocolMismatch, addArgumentStr [] ['a']) ∧
      takeString (addArgumentInt [] 7)
        = (Except.error MsgError.ProtocolMismatch, addArgumentInt [] 7)) :=
  ⟨⟨rfl, rfl⟩, c5_mismatch_atomic _ _ rfl rfl⟩

/-- C6: peeking at the next token's tag with `nextIsInt` or
`nextIsString` never modifies the buffer: the buffer observed after the
peek is the input buffer. -/
theorem c6_peek_no_mutation (buf : List Char) :
    (nextIsIntOp buf).2 = buf ∧ (nextIsStringOp buf).2 = buf :=
  ⟨rfl, rfl⟩

/-- Counterexample to C7 as stated: on the text consisting of a lone
sign character, `wideToInteger` fails even though the text is not
empty, every character after the optional leading sign is a digit
(vacuously), and the denoted value (0 from the empty digit run) is in
the 32-bit signed range. -/
theorem c7_counterexample :
    wideToInteger ['-'] = none ∧
      ¬(['-'] = ([] : List Char)
        ∨ (stripSign ['-']).all Char.isDigit = false
        ∨ ¬(-(2 ^ 31) ≤ parsedValue ['-'] ∧ parsedValue ['-'] ≤ 2 ^ 31 - 1)) :=
  ⟨rfl, by decide⟩

/-- C7 (amended): `wideToInteger` fails exactly when the input text is
empty, consists of only a sign character with no digits, contains a
non-digit character after the optional leading sign, or denotes a value
outside the 32-bit signed range; on any other input it returns the
parsed value. -/
theorem c7_parser_domain (input : List Char) :
    wideToInteger input =
      if input = [] ∨ stripSign input = []
          ∨ (stripSign input).all Char.isDigit = false
          ∨ ¬(-(2 ^ 31) ≤ parsedValue input ∧ parsedValue input ≤ 2 ^ 31 - 1)
      then none else some (parsedValue input) :=
  wideToInteger_eq input

/-- C8: decoding one complete Integer token as a boolean yields false
exactly for the value 0 and true for every nonzero value. -/
theorem c8_bool_decode (v : Int) (h1 : -(2 ^ 31) ≤ v) (h2 : v ≤ 2 ^ 31 - 1) :
    getClientBoolFromSocket (addArgumentInt [] v)
      = (Except.ok (decide (v ≠ 0)), []) :=
  getClientBool_encoded v h1 h2

/-- Witness for C8: an Integer token with value 1 yields true, and one
with value 0 yields false. -/
theorem c8_bool_decode_witness :
    ((-(2 ^ 31) ≤ (1 : Int) ∧ (1 : Int) ≤ 2 ^ 31 - 1) ∧
      getClientBoolFromSocket (addArgumentInt [] 1) = (Except.ok true, [])) ∧
    ((-(2 ^ 31) ≤ (0 : Int) ∧ (0 : Int) ≤ 2 ^ 31 - 1) ∧
      getClientBoolFromSocket (addArgumentInt [] 0) = (Except.ok false, [])) :=
  ⟨⟨⟨by decide, by decide⟩, c8_bool_decode 1 (by decide) (by decide)⟩,
   ⟨⟨by decide, by decide⟩, c8_bool_decode 0 (by decide) (by decide)⟩⟩

end TelldusCore

/-- C9: `tdDim` collapses its boundary levels onto the on/off calls:
level 0 issues exactly the switch `tdTurnOff` issues, level 255 issues
exactly the switch `tdTurnOn` issues, and a `TELLSTICK_DIM` command is
issued precisely for the levels strictly between 0 and 255 (the level
is an `unsigned char`, hence below 256). -/
theorem c9_tdDim_boundaries (intDeviceId : Int) (level : Nat) (h : level < 256) :
    tdDim intDeviceId 0 = tdTurnOff intDeviceId ∧
    tdDim intDeviceId 255 = tdTurnOn intDeviceId ∧
    (tdDim intDeviceId level = SwitchStateCall.withValue intDeviceId Method.dim level
      ↔ 0 < level ∧ level < 255) := by
  refine ⟨rfl, rfl, ?_⟩
  unfold tdDim
  split_ifs with h0 h255
  · subst h0
    simp
  · subst h255
    constructor
    · intro hfalse
      cases hfalse
    · intro hr
      omega
  · constructor
    · intro _
      omega
    · intro _
      rfl

/-- Witness for C9 at device 42 and the interior level 128. -/
theorem c9_tdDim_boundaries_witness :
    128 < 256 ∧
      (tdDim 42 0 = tdTurnOff 42 ∧ tdDim 42 255 = tdTurnOn 42 ∧
        (tdDim 42 128 = SwitchStateCall.withValue 42 Method.dim 128
          ↔ 0 < 128 ∧ 128 < 255)) :=
  ⟨by decide, c9_tdDim_boundaries 42 128 (by decide)⟩

/-- Counterexample to C10 as stated: at `INT32_MIN` the `abs` call
overflows (undefined behaviour in C), so no string at all is returned,
contradicting totality. -/
theorem c10_counterexample :
    tdGetErrorString (-(2 ^ 31)) = none ∧
      ¬∃ s, tdGetErrorString (-(2 ^ 31)) = some s ∧ s ≠ "" := by
  refine ⟨rfl, ?_⟩
  rintro ⟨s, hs, -⟩
  rw [show tdGetErrorString (-(2 ^ 31)) = none from rfl] at hs
  cases hs

/-- C10 (amended): for every 32-bit signed error code except
`INT32_MIN` (where `abs` overflows), `tdGetErrorString` returns a
non-empty string, returns the same string for `n` and `-n`, and
returns the string `Unknown error` whenever the absolute value is at
least 8. -/
theorem c10_error_string_amended (n : Int)
    (h1 : -(2 ^ 31) < n) (h2 : n ≤ 2 ^ 31 - 1) :
    (∃ s, tdGetErrorString n = some s ∧ s ≠ "") ∧
    tdGetErrorString n = tdGetErrorString (-n) ∧
    (8 ≤ n.natAbs → tdGetErrorString n = some "Unknown error") := by
  have hne : ¬(n = -(2 ^ 31)) := by omega
  have hne' : ¬(-n = -(2 ^ 31)) := by omega
  have habs : (-n).natAbs = n.natAbs := Int.natAbs_neg n
  refine ⟨?_, ?_, ?_⟩
  · unfold tdGetErrorString
    rw [if_neg hne]
    by_cases h8 : n.natAbs ≥ 8
    · rw [if_pos h8]
      exact ⟨"Unknown error", rfl, by decide⟩
    · rw [if_neg h8]
      refine ⟨responses.getD n.natAbs "", rfl, ?_⟩
      have hlt : n.natAbs < 8 := by omega
      set m := n.natAbs with hm
      interval_cases m <;> decide
  · unfold tdGetErrorString
    rw [if_neg hne, if_neg hne', habs]
  · intro h8
    unfold tdGetErrorString
    rw [if_neg hne, if_pos h8]

/-- Witness for C10 (amended) at the error code 9. -/
theorem c10_error_string_amended_witness :
    (-(2 ^ 31) < (9 : Int) ∧ (9 : Int) ≤ 2 ^ 31 - 1) ∧
      ((∃ s, tdGetErrorString 9 = some s ∧ s ≠ "") ∧
        tdGetErrorString 9 = tdGetErrorString (-9) ∧
        (8 ≤ (9 : Int).natAbs → tdGetErrorString 9 = some "Unknown error")) :=
  ⟨⟨by decide, by decide⟩, c10_error_string_amended 9 (by decide) (by decide)⟩
